import Mathlib

/-!
Shallow embedding of the streaming response decoder, delta accumulator and
tool-orchestration loop of `src/core/Agent.py` (class `Agent`) and
`src/core/SelfImprovingAgent.py` (class `SelfImprovingAgent`), together with
theorems settling the specification claims about them.

Python exceptions are modelled with `Except String`; `Except.error` means a
raised fault propagating out of the modelled function.  `json.loads` at the
stream boundary is modelled by an abstract `decode` function (`none` models a
raised decode failure) and at the tool boundary by an abstract `parseArgs`
function.
-/

set_option autoImplicit false

namespace Strix

/-- Python truthiness of an optional string (`None` and `""` are falsy). -/
def pyTruthyStr : Option String → Bool
  | none => false
  | some s => s != ""

/-- One accumulated tool call of the assistant message
(an element of `message["tool_calls"]`). -/
structure ToolCall where
  id : String
  name : String
  arguments : String
  deriving Repr, DecidableEq

/-- The assistant message accumulated by `Agent.get_response`; `none` is an
absent dictionary key. -/
structure Message where
  role : String
  reasoning_content : Option String
  content : Option String
  tool_calls : Option (List ToolCall)
  deriving Repr, DecidableEq

/-- The `function` object inside a streamed tool-call increment
(`tc["function"]`): `arguments` is read for every increment, `name` only on
an id-bearing one. -/
structure ToolCallFn where
  name : Option String
  arguments : String
  deriving Repr, DecidableEq

/-- One element of `delta["tool_calls"]`. -/
structure ToolCallDelta where
  id : Option String
  function : ToolCallFn
  deriving Repr, DecidableEq

/-- The `delta` object of a streamed chunk's first choice; an absent
`tool_calls` key and an empty list are both falsy in Python, so both are
modelled by `[]`. -/
structure Delta where
  reasoning_content : Option String
  content : Option String
  tool_calls : List ToolCallDelta
  deriving Repr, DecidableEq

/-- The `timings` counters of a chunk. -/
structure Timings where
  cache_n : Nat
  prompt_n : Nat
  predicted_n : Nat
  deriving Repr, DecidableEq

/-- The `usage` counters of a chunk. -/
structure Usage where
  total_tokens : Nat
  deriving Repr, DecidableEq

/-- One decoded stream chunk (`chunk_json`), flattened to the fields
`Agent.get_response` reads: `choices[0].delta`, `choices[0].finish_reason`
and the top-level `timings` / `usage` counters. -/
structure Fragment where
  delta : Option Delta
  finish_reason : Option String
  timings : Option Timings
  usage : Option Usage
  deriving Repr, DecidableEq

/-- The loop-local accumulator state of `Agent.get_response`. -/
structure AccState where
  started_reasoning : Bool
  started_content : Bool
  started_tool_calls : Bool
  n_tokens : Nat
  tool_call_index : Int
  message : Message
  deriving Repr, DecidableEq

/-- The state at the top of `Agent.get_response`'s chunk loop. -/
def initState : AccState :=
  { started_reasoning := false, started_content := false,
    started_tool_calls := false, n_tokens := 0, tool_call_index := -1,
    message := { role := "assistant", reasoning_content := none,
                 content := none, tool_calls := none } }

/-- Python list index normalization for element access: a negative index
counts from the end; an out-of-range index raises `IndexError`. -/
def pyNormIdx (len : Nat) (i : Int) : Except String Nat :=
  let j := if i < 0 then i + len else i
  if 0 ≤ j ∧ j < len then Except.ok j.toNat else Except.error "IndexError"

/-- Python `message["tool_calls"][j]["function"]["arguments"] += a`. -/
def appendArgsAt : List ToolCall → Nat → String → List ToolCall
  | [], _, _ => []
  | c :: rest, 0, a => { c with arguments := c.arguments ++ a } :: rest
  | c :: rest, Nat.succ n, a => c :: appendArgsAt rest n a

/-- The `if delta := choice.get("delta")` body of `Agent.get_response`:
a truthy reasoning increment takes precedence, else a content increment not
equal to a lone newline and not empty, else a tool-call increment.  An
id-bearing tool-call increment appends a new call and advances
`tool_call_index`; one lacking an id appends its argument text to the call
at `tool_call_index`. -/
def handleDelta (s : AccState) (d : Delta) : Except String AccState :=
  if pyTruthyStr d.reasoning_content then
    let rc := d.reasoning_content.getD ""
    if s.started_reasoning then
      Except.ok { s with message := { s.message with
        reasoning_content := some (s.message.reasoning_content.getD "" ++ rc) } }
    else
      Except.ok { s with started_reasoning := true, message := { s.message with
        reasoning_content := some rc } }
  else if (d.content.getD "\n") ≠ "\n" ∧ (d.content.getD "\n") ≠ "" then
    let c := d.content.getD "\n"
    if s.started_content then
      Except.ok { s with message := { s.message with
        content := some (s.message.content.getD "" ++ c) } }
    else
      Except.ok { s with started_content := true, message := { s.message with
        content := some c } }
  else
    match d.tool_calls with
    | [] => Except.ok s
    | tc :: _ =>
      let args_data := tc.function.arguments
      let s1 := if s.started_tool_calls then s
        else { s with started_tool_calls := true, message := { s.message with
          tool_calls := some [] } }
      if pyTruthyStr tc.id then
        match tc.function.name with
        | none => Except.error "KeyError: name"
        | some nm =>
          Except.ok { s1 with
            tool_call_index := s1.tool_call_index + 1,
            message := { s1.message with
              tool_calls := some ((s1.message.tool_calls.getD []) ++
                [{ id := tc.id.getD "", name := nm, arguments := args_data }]) } }
      else
        let tcs := s1.message.tool_calls.getD []
        match pyNormIdx tcs.length s1.tool_call_index with
        | Except.error e => Except.error e
        | Except.ok j =>
          Except.ok { s1 with message := { s1.message with
            tool_calls := some (appendArgsAt tcs j args_data) } }

/-- The `if finish_reason := choice.get("finish_reason")` tail of the chunk
handler: timings, when present, are summed into `n_tokens`; otherwise an
explicit usage total is taken; otherwise `n_tokens` is left alone. -/
def handleFinish (s : AccState) (f : Fragment) : AccState :=
  if pyTruthyStr f.finish_reason then
    match f.timings with
    | some t => { s with n_tokens := t.cache_n + t.prompt_n + t.predicted_n }
    | none =>
      match f.usage with
      | some u => { s with n_tokens := u.total_tokens }
      | none => s
  else s

/-- Processing of one decoded chunk inside `Agent.get_response`'s loop:
the delta branch (when the delta is truthy) followed by the finish branch. -/
def stepFragment (s : AccState) (f : Fragment) : Except String AccState :=
  match f.delta with
  | none => Except.ok (handleFinish s f)
  | some d =>
    match handleDelta s d with
    | Except.error e => Except.error e
    | Except.ok s1 => Except.ok (handleFinish s1 f)

/-- Folding a whole fragment sequence through the accumulator. -/
def runFragments (s : AccState) : List Fragment → Except String AccState
  | [] => Except.ok s
  | f :: fs =>
    match stepFragment s f with
    | Except.error e => Except.error e
    | Except.ok s1 => runFragments s1 fs

/-- Python `str.rstrip()` (ASCII whitespace, which is all the protocol's
line endings use). -/
def pyRstrip (s : String) : String :=
  ⟨(s.data.reverse.dropWhile Char.isWhitespace).reverse⟩

/-- Character-list test that `p` begins `s`. -/
def listStarts : List Char → List Char → Bool
  | [], _ => true
  | _ :: _, [] => false
  | p :: ps, c :: cs => p == c && listStarts ps cs

/-- Python `str.startswith`. -/
def pyStartsWith (s p : String) : Bool := listStarts p.data s.data

/-- Python slicing `s[n:]`. -/
def pyDrop (n : Nat) (s : String) : String := ⟨s.data.drop n⟩

/-- One iteration of the `async for chunk_bytes in resp.content` loop of
`Agent.get_response`.  `Sum.inl` continues with the updated accumulator;
`Sum.inr` is the `return message, n_tokens` taken on the terminal sentinel.
`decode` stands for `json.loads`, with `none` modelling a raised decode
failure (fatal for the turn). -/
def processLine (decode : String → Option Fragment) (s : AccState)
    (line : String) : Except String (AccState ⊕ (Message × Nat)) :=
  let chunk := pyRstrip line
  if pyStartsWith chunk "data: " then
    let payload := pyDrop 6 chunk
    if payload = "[DONE]" then Except.ok (Sum.inr (s.message, s.n_tokens))
    else
      match decode payload with
      | none => Except.error "json.JSONDecodeError"
      | some f =>
        match stepFragment s f with
        | Except.error e => Except.error e
        | Except.ok s1 => Except.ok (Sum.inl s1)
  else Except.ok (Sum.inl s)

/-- A conversation message as stored in `self.messages`. -/
inductive Msg where
  | system (content : String)
  | user (content : String)
  | assistant (m : Message)
  | tool (tool_call_id : String) (name : String) (content : String)
  deriving Repr, DecidableEq

/-- Python `repr` of a string without quote characters, as it appears inside
`str(list(self.tools.keys()))`. -/
def pyRepr (s : String) : String := "\x27" ++ s ++ "\x27"

/-- The comma-separated inside of Python's `str` of a list of strings. -/
def pyStrInner : List String → String
  | [] => ""
  | [k] => pyRepr k
  | k :: rest => pyRepr k ++ ", " ++ pyStrInner rest

/-- Python `str(list(self.tools.keys()))`. -/
def pyStrList (l : List String) : String := "[" ++ pyStrInner l ++ "]"

/-- The tool registry `self.tools`: an ordered name-to-callable map.  A
callable takes the parsed keyword arguments and either returns the textual
result (`str(res)`, awaited if needed) or raises. -/
abbrev Registry (Args : Type) := List (String × (Args → Except String String))

/-- Python `self.tools.get(fn_name)`. -/
def lookupTool {Args : Type} : Registry Args → String → Option (Args → Except String String)
  | [], _ => none
  | (n, f) :: rest, k => if n = k then some f else lookupTool rest k

/-- Python `list(self.tools.keys())`. -/
def registryKeys {Args : Type} (tools : Registry Args) : List String :=
  tools.map Prod.fst

/-- The body of `for tc in tool_calls` in `Agent.__call__`: look the name up;
if found, parse the arguments (`json.loads`, may raise) and invoke the tool
(may raise); if absent, synthesize the unknown-tool text.  The outcome
becomes a tool message carrying the call's id and name. -/
def dispatchOne {Args : Type} (tools : Registry Args)
    (parseArgs : String → Except String Args) (tc : ToolCall) :
    Except String Msg :=
  match lookupTool tools tc.name with
  | some fn =>
    match parseArgs tc.arguments with
    | Except.error e => Except.error e
    | Except.ok kwargs =>
      match fn kwargs with
      | Except.error e => Except.error e
      | Except.ok res => Except.ok (Msg.tool tc.id tc.name res)
  | none =>
    Except.ok (Msg.tool tc.id tc.name
      (tc.name ++ " not in tools[" ++ pyStrList (registryKeys tools) ++ "]"))

/-- The sequential dispatch loop of `Agent.__call__`: each tool message is
appended to `msgs` in request order; a raised fault propagates out of the
loop. -/
def runToolCalls {Args : Type} (tools : Registry Args)
    (parseArgs : String → Except String Args) (msgs : List Msg) :
    List ToolCall → Except String (List Msg)
  | [] => Except.ok msgs
  | tc :: rest =>
    match dispatchOne tools parseArgs tc with
    | Except.error e => Except.error e
    | Except.ok m => runToolCalls tools parseArgs (msgs ++ [m]) rest

/-- The coroutine-building phase of `SelfImprovingAgent.__call__`: the
arguments of known tools are parsed eagerly (a parse fault raises right
there, before anything runs); each entry is the pending result of one
coroutine handed to `asyncio.gather` (the `missing_tool` coroutine cannot
raise). -/
def gatherPlan {Args : Type} (tools : Registry Args)
    (parseArgs : String → Except String Args) :
    List ToolCall → Except String (List (Except String String))
  | [] => Except.ok []
  | tc :: rest =>
    match lookupTool tools tc.name with
    | some fn =>
      match parseArgs tc.arguments with
      | Except.error e => Except.error e
      | Except.ok kwargs =>
        match gatherPlan tools parseArgs rest with
        | Except.error e => Except.error e
        | Except.ok l => Except.ok (fn kwargs :: l)
    | none =>
      match gatherPlan tools parseArgs rest with
      | Except.error e => Except.error e
      | Except.ok l =>
        Except.ok (Except.ok
          (tc.name ++ " not in tools[" ++ pyStrList (registryKeys tools) ++ "]") :: l)

/-- Model of `asyncio.gather`: the coroutine results in argument order; a raised
fault propagates. -/
def gatherResults : List (Except String String) → Except String (List String)
  | [] => Except.ok []
  | Except.error e :: _ => Except.error e
  | Except.ok v :: rest =>
    match gatherResults rest with
    | Except.error e => Except.error e
    | Except.ok vs => Except.ok (v :: vs)

/-- The concurrent dispatch block of `SelfImprovingAgent.__call__`: build
the coroutines, gather them, then append one tool message per call, zipped
with the original tool-call sequence (request order, regardless of
completion order). -/
def runToolCallsGather {Args : Type} (tools : Registry Args)
    (parseArgs : String → Except String Args) (msgs : List Msg)
    (tcs : List ToolCall) : Except String (List Msg) :=
  match gatherPlan tools parseArgs tcs with
  | Except.error e => Except.error e
  | Except.ok plan =>
    match gatherResults plan with
    | Except.error e => Except.error e
    | Except.ok results =>
      Except.ok (msgs ++ List.zipWith (fun tc res => Msg.tool tc.id tc.name res) tcs results)

/-- Reading `response.get("tool_calls")` with an absent key read as the empty
list. -/
def msgToolCalls (m : Message) : List ToolCall := m.tool_calls.getD []

/-- Python truthiness of `response.get("tool_calls")`: truthy exactly when
the key is present and the list non-empty. -/
def hasToolCalls (m : Message) : Bool := !(msgToolCalls m).isEmpty

/-- The `while tool_calls := response.get("tool_calls")` loop of
`Agent.__call__`, with the successive `get_response` results supplied by
`script` (each already appended to `msgs` by the caller of the round).
Returns `none` when the loop needs another response but the script is
exhausted (the real loop would still be awaiting the server). -/
def toolLoop {Args : Type} (tools : Registry Args)
    (parseArgs : String → Except String Args) :
    List (Message × Nat) → List Msg → Message → Nat →
    Except String (Option (List Msg × Nat))
  | script, msgs, resp, ntok =>
    if hasToolCalls resp then
      match runToolCalls tools parseArgs msgs (msgToolCalls resp) with
      | Except.error e => Except.error e
      | Except.ok msgs1 =>
        match script with
        | [] => Except.ok none
        | (r, t) :: rest => toolLoop tools parseArgs rest (msgs1 ++ [Msg.assistant r]) r t
    else Except.ok (some (msgs, ntok))

/-- One `Awaiting-Model` episode of the outer `while True` of
`Agent.__call__`: append the first response, run the tool loop (further
responses from `script`), then read one line of user input and append it
as a user message. -/
def outerStep {Args : Type} (tools : Registry Args)
    (parseArgs : String → Except String Args) (msgs : List Msg)
    (resp : Message) (ntok : Nat) (script : List (Message × Nat))
    (userInput : String) : Except String (Option (List Msg)) :=
  match toolLoop tools parseArgs script (msgs ++ [Msg.assistant resp]) resp ntok with
  | Except.error e => Except.error e
  | Except.ok none => Except.ok none
  | Except.ok (some (msgs1, _)) => Except.ok (some (msgs1 ++ [Msg.user userInput]))

/-- A fragment carrying only a reasoning increment. -/
def reasoningFrag (r : String) : Fragment :=
  { delta := some { reasoning_content := some r, content := none, tool_calls := [] },
    finish_reason := none, timings := none, usage := none }

/-- A fragment carrying only a content increment. -/
def contentFrag (c : String) : Fragment :=
  { delta := some { reasoning_content := none, content := some c, tool_calls := [] },
    finish_reason := none, timings := none, usage := none }

/-- A tool-call increment that introduces a call (carries `id` and `name`). -/
def introFrag (i nm a : String) : Fragment :=
  { delta := some { reasoning_content := none, content := none,
                    tool_calls := [{ id := some i,
                                     function := { name := some nm, arguments := a } }] },
    finish_reason := none, timings := none, usage := none }

/-- A tool-call increment lacking `id` (argument continuation). -/
def contFrag (a : String) : Fragment :=
  { delta := some { reasoning_content := none, content := none,
                    tool_calls := [{ id := none,
                                     function := { name := none, arguments := a } }] },
    finish_reason := none, timings := none, usage := none }

/-- One tool call as the stream presents it: an introducing fragment with a
fresh id and the initial argument text, then the argument-continuation
fragments arriving before the next id-bearing fragment. -/
structure CallSpec where
  id : String
  name : String
  arg0 : String
  conts : List String
  deriving Repr, DecidableEq

/-- The fragments of one streamed tool call. -/
def fragsOfSpec (c : CallSpec) : List Fragment :=
  introFrag c.id c.name c.arg0 :: c.conts.map contFrag

/-- The fragments of a whole sequence of streamed tool calls. -/
def fragsOfSpecs (l : List CallSpec) : List Fragment :=
  (l.map fragsOfSpec).flatten

/-- Concatenation of a list of strings in order. -/
def catStrs : List String → String
  | [] => ""
  | v :: rest => v ++ catStrs rest

/-- The tool call an introducing fragment and its continuations should
accumulate to. -/
def entryOfSpec (c : CallSpec) : ToolCall :=
  { id := c.id, name := c.name, arguments := c.arg0 ++ catStrs c.conts }

/-- Predicate: `needle` occurs contiguously inside `hay`. -/
def Contains (hay needle : String) : Prop :=
  ∃ a b, hay = a ++ needle ++ b

/-- A single-category increment, for streams where every fragment carries
exactly one increment category. -/
inductive Inc where
  | reasoning (s : String)
  | content (s : String)
  deriving Repr, DecidableEq

/-- The fragment carrying one increment. -/
def fragOfInc : Inc → Fragment
  | Inc.reasoning s => reasoningFrag s
  | Inc.content s => contentFrag s

/-- The content increments of a stream, in arrival order. -/
def contentIncs : List Inc → List String
  | [] => []
  | Inc.content s :: rest => s :: contentIncs rest
  | Inc.reasoning _ :: rest => contentIncs rest

/-- The reasoning increments of a stream, in arrival order. -/
def reasoningIncs : List Inc → List String
  | [] => []
  | Inc.reasoning s :: rest => s :: reasoningIncs rest
  | Inc.content _ :: rest => reasoningIncs rest

/-- Accumulate a list of text increments onto an optional field the way the
accumulator does: the first increment creates the field, later ones are
appended to it. -/
def optConcat (c : Option String) : List String → Option String
  | [] => c
  | v :: rest => optConcat (some (c.getD "" ++ v)) rest

/-- A decode oracle that fails on every payload. -/
def decNone : String → Option Fragment := fun _ => none

/-- A decode oracle recognizing the single payload `"x"`. -/
def decEx : String → Option Fragment :=
  fun p => if p = "x" then some (contentFrag "hi") else none

/-- An argument parser that accepts everything (arguments are ignored by the
example tools). -/
def parseU : String → Except String Unit := fun _ => Except.ok ()

/-- An argument parser that accepts exactly the text `"good"` and raises a
decode failure on anything else, modelling `json.loads` on non-JSON
argument text. -/
def parseJ : String → Except String Unit :=
  fun s => if s = "good" then Except.ok () else Except.error "JSONDecodeError"

/-- A concrete two-tool registry: `echo` succeeds, `boom` raises. -/
def toolsEx : Registry Unit :=
  [("echo", fun _ => Except.ok "4"), ("boom", fun _ => Except.error "RuntimeError: boom")]

/-- Invariant of the accumulator: the content/reasoning start flags hold
exactly when the corresponding message field has been created. -/
def flagsOk (s : AccState) : Prop :=
  s.started_content = s.message.content.isSome ∧
  s.started_reasoning = s.message.reasoning_content.isSome

/-- Invariant of the accumulator: the tool-call start flag holds exactly
when the list has been created, and the current-call index points at the
last accumulated call. -/
def tcOk (s : AccState) : Prop :=
  s.started_tool_calls = s.message.tool_calls.isSome ∧
  s.tool_call_index = ((s.message.tool_calls.getD []).length : Int) - 1

/-!  ### Helper lemmas  -/

theorem step_content_skip (s : AccState) (v : String) (hv : v = "\n" ∨ v = "") :
    stepFragment s (contentFrag v) = Except.ok s := by
  rcases hv with h | h <;> subst h <;> rfl

theorem step_content_app (s : AccState) (v : String) (hv1 : v ≠ "\n") (hv2 : v ≠ "")
    (hf : flagsOk s) :
    stepFragment s (contentFrag v) = Except.ok
      { s with started_content := true, message := { s.message with
          content := some (s.message.content.getD "" ++ v) } } := by
  have hc := hf.1
  cases hsc : s.started_content with
  | true =>
    simp [stepFragment, contentFrag, handleDelta, handleFinish, pyTruthyStr,
      hsc, hv1, hv2]
  | false =>
    have hnone : s.message.content = none := by
      cases h : s.message.content with
      | none => rfl
      | some c => rw [hsc, h] at hc; simp at hc
    simp [stepFragment, contentFrag, handleDelta, handleFinish, pyTruthyStr,
      hsc, hnone, hv1, hv2, String.empty_append]

theorem step_reasoning_skip (s : AccState) :
    stepFragment s (reasoningFrag "") = Except.ok s := rfl

theorem step_reasoning_app (s : AccState) (v : String) (hv : v ≠ "") (hf : flagsOk s) :
    stepFragment s (reasoningFrag v) = Except.ok
      { s with started_reasoning := true, message := { s.message with
          reasoning_content := some (s.message.reasoning_content.getD "" ++ v) } } := by
  have hr := hf.2
  cases hsr : s.started_reasoning with
  | true =>
    simp [stepFragment, reasoningFrag, handleDelta, handleFinish, pyTruthyStr,
      hsr, hv]
  | false =>
    have hnone : s.message.reasoning_content = none := by
      cases h : s.message.reasoning_content with
      | none => rfl
      | some c => rw [hsr, h] at hr; simp at hr
    simp [stepFragment, reasoningFrag, handleDelta, handleFinish, pyTruthyStr,
      hsr, hnone, hv, String.empty_append]

theorem optConcat_cons_getD (c : Option String) (v : String) (l : List String) :
    optConcat c (v :: l) = optConcat (some (c.getD "" ++ v)) l := rfl

theorem optConcat_some_eq (l : List String) : ∀ c : String,
    optConcat (some c) l = some (c ++ catStrs l) := by
  induction l with
  | nil => intro c; simp [optConcat, catStrs, String.append_empty]
  | cons v rest ih =>
    intro c
    simp [optConcat, catStrs, ih (c ++ v), String.append_assoc]

theorem optConcat_none_getD (l : List String) :
    (optConcat none l).getD "" = catStrs l := by
  cases l with
  | nil => rfl
  | cons v rest =>
    rw [optConcat_cons_getD]
    simp [optConcat_some_eq, catStrs, String.empty_append]

theorem optConcat_none_eq_none_iff (l : List String) :
    optConcat none l = none ↔ l = [] := by
  cases l with
  | nil => simp [optConcat]
  | cons v rest =>
    rw [optConcat_cons_getD]
    simp [optConcat_some_eq]

theorem catStrs_filter_drop_empty (p : String → Bool) (l : List String) :
    catStrs (l.filter (fun v => p v && v != "")) = catStrs (l.filter p) := by
  induction l with
  | nil => rfl
  | cons v rest ih =>
    by_cases he : v = ""
    · subst he
      cases hp : p "" <;>
        simp [List.filter_cons, hp, catStrs, ih, String.empty_append]
    · cases hp : p v <;>
        simp [List.filter_cons, hp, he, catStrs, ih]

/-- Folding single-category increments: the content and reasoning fields
grow by exactly the processed increments, the tool-call field and token
count do not move, and the flag invariant is preserved. -/
theorem runIncs (incs : List Inc) : ∀ s : AccState, flagsOk s →
    ∃ s1, runFragments s (incs.map fragOfInc) = Except.ok s1 ∧ flagsOk s1 ∧
      s1.message.content = optConcat s.message.content
        ((contentIncs incs).filter (fun v => v != "\n" && v != "")) ∧
      s1.message.reasoning_content = optConcat s.message.reasoning_content
        ((reasoningIncs incs).filter (fun v => v != "")) ∧
      s1.message.tool_calls = s.message.tool_calls ∧
      s1.message.role = s.message.role ∧
      s1.n_tokens = s.n_tokens := by
  induction incs with
  | nil =>
    intro s hs
    exact ⟨s, rfl, hs, rfl, rfl, rfl, rfl, rfl⟩
  | cons i rest ih =>
    intro s hs
    cases i with
    | content v =>
      by_cases hv : v = "\n" ∨ v = ""
      · obtain ⟨s1, hrun, h1, h2, h3, h4, h5, h6⟩ := ih s hs
        refine ⟨s1, ?_, h1, ?_, h3, h4, h5, h6⟩
        · simp only [List.map_cons, runFragments, fragOfInc]
          rw [step_content_skip s v hv]
          exact hrun
        · rw [h2]
          simp only [contentIncs, List.filter_cons]
          rw [if_neg (by rcases hv with h | h <;> simp [h])]
      · push_neg at hv
        have hstep := step_content_app s v hv.1 hv.2 hs
        have hf' : flagsOk ({ s with started_content := true, message := { s.message with
            content := some (s.message.content.getD "" ++ v) } }) := ⟨rfl, hs.2⟩
        obtain ⟨s1, hrun, h1, h2, h3, h4, h5, h6⟩ := ih _ hf'
        refine ⟨s1, ?_, h1, ?_, h3, h4, h5, h6⟩
        · simp only [List.map_cons, runFragments, fragOfInc]
          rw [hstep]
          exact hrun
        · rw [h2]
          simp only [contentIncs, List.filter_cons]
          rw [if_pos (by simp [hv.1, hv.2]), optConcat_cons_getD]
    | reasoning v =>
      by_cases hv : v = ""
      · obtain ⟨s1, hrun, h1, h2, h3, h4, h5, h6⟩ := ih s hs
        refine ⟨s1, ?_, h1, h2, ?_, h4, h5, h6⟩
        · subst hv
          simp only [List.map_cons, runFragments, fragOfInc]
          rw [step_reasoning_skip s]
          exact hrun
        · rw [h3]
          simp only [reasoningIncs, List.filter_cons]
          rw [if_neg (by simp [hv])]
      · have hstep := step_reasoning_app s v hv hs
        have hf' : flagsOk ({ s with started_reasoning := true, message := { s.message with
            reasoning_content := some (s.message.reasoning_content.getD "" ++ v) } }) :=
          ⟨hs.1, rfl⟩
        obtain ⟨s1, hrun, h1, h2, h3, h4, h5, h6⟩ := ih _ hf'
        refine ⟨s1, ?_, h1, h2, ?_, h4, h5, h6⟩
        · simp only [List.map_cons, runFragments, fragOfInc]
          rw [hstep]
          exact hrun
        · rw [h3]
          simp only [reasoningIncs, List.filter_cons]
          rw [if_pos (by simp [hv]), optConcat_cons_getD]

theorem appendArgsAt_last (pre : List ToolCall) (e : ToolCall) (a : String) :
    appendArgsAt (pre ++ [e]) pre.length a =
      pre ++ [{ e with arguments := e.arguments ++ a }] := by
  induction pre with
  | nil => rfl
  | cons c r ih => simpa [appendArgsAt] using ih

theorem step_introFrag (s : AccState) (i nm a : String) (hi : i ≠ "") (ht : tcOk s) :
    stepFragment s (introFrag i nm a) = Except.ok
      { s with started_tool_calls := true,
               tool_call_index := s.tool_call_index + 1,
               message := { s.message with
                 tool_calls := some ((s.message.tool_calls.getD []) ++
                   [{ id := i, name := nm, arguments := a }]) } } := by
  cases hst : s.started_tool_calls with
  | true =>
    simp [stepFragment, introFrag, handleDelta, handleFinish, pyTruthyStr, hst, hi]
  | false =>
    have hnone : s.message.tool_calls = none := by
      have h1 := ht.1
      rw [hst] at h1
      cases h : s.message.tool_calls with
      | none => rfl
      | some tl => rw [h] at h1; simp at h1
    simp [stepFragment, introFrag, handleDelta, handleFinish, pyTruthyStr, hst, hi, hnone]

theorem step_contFrag (s : AccState) (a : String) (pre : List ToolCall) (e : ToolCall)
    (ht : tcOk s) (htc : s.message.tool_calls = some (pre ++ [e])) :
    stepFragment s (contFrag a) = Except.ok
      { s with message := { s.message with
          tool_calls := some (pre ++ [{ e with arguments := e.arguments ++ a }]) } } := by
  have hst : s.started_tool_calls = true := by
    rw [ht.1, htc]; rfl
  have hidx : s.tool_call_index = (pre.length : Int) := by
    rw [ht.2, htc]
    simp
  have hnorm : pyNormIdx (pre.length + 1) ((pre.length : Nat) : Int) =
      Except.ok pre.length := by
    simp only [pyNormIdx]
    rw [if_neg (show ¬(((pre.length : Nat) : Int) < 0) by omega)]
    rw [if_pos (show (0 : Int) ≤ ((pre.length : Nat) : Int) ∧
      ((pre.length : Nat) : Int) < ((pre.length + 1 : Nat) : Int) by
        refine ⟨by omega, by omega⟩)]
    simp
  simp [stepFragment, contFrag, handleDelta, handleFinish, pyTruthyStr, hst, htc,
    hidx, hnorm, appendArgsAt_last]

theorem run_conts (conts : List String) : ∀ (s : AccState) (pre : List ToolCall)
    (e : ToolCall), tcOk s → s.message.tool_calls = some (pre ++ [e]) →
    ∃ s1, runFragments s (conts.map contFrag) = Except.ok s1 ∧ tcOk s1 ∧
      s1.message.tool_calls =
        some (pre ++ [{ e with arguments := e.arguments ++ catStrs conts }]) ∧
      s1.message.content = s.message.content ∧
      s1.message.reasoning_content = s.message.reasoning_content ∧
      s1.message.role = s.message.role ∧
      s1.n_tokens = s.n_tokens := by
  induction conts with
  | nil =>
    intro s pre e ht htc
    refine ⟨s, rfl, ht, ?_, rfl, rfl, rfl, rfl⟩
    rw [htc]
    simp [catStrs, String.append_empty]
  | cons a rest ih =>
    intro s pre e ht htc
    have hstep := step_contFrag s a pre e ht htc
    have ht' : tcOk
        { s with message := { s.message with
            tool_calls := some (pre ++ [{ e with arguments := e.arguments ++ a }]) } } := by
      constructor
      · show s.started_tool_calls = _
        rw [ht.1, htc]
        rfl
      · show s.tool_call_index = _
        rw [ht.2, htc]
        simp
    obtain ⟨s1, hrun, h1, h2, h3, h4, h5, h6⟩ := ih _ pre _ ht' rfl
    refine ⟨s1, ?_, h1, ?_, h3, h4, h5, h6⟩
    · simp only [List.map_cons, runFragments]
      rw [hstep]
      exact hrun
    · rw [h2]
      simp [catStrs, String.append_assoc]

theorem run_spec (c : CallSpec) (s : AccState) (hi : c.id ≠ "") (ht : tcOk s) :
    ∃ s1, runFragments s (fragsOfSpec c) = Except.ok s1 ∧ tcOk s1 ∧
      s1.message.tool_calls =
        some ((s.message.tool_calls.getD []) ++ [entryOfSpec c]) ∧
      s1.message.content = s.message.content ∧
      s1.message.reasoning_content = s.message.reasoning_content ∧
      s1.message.role = s.message.role ∧
      s1.n_tokens = s.n_tokens := by
  have hstep := step_introFrag s c.id c.name c.arg0 hi ht
  have ht' : tcOk
      { s with started_tool_calls := true,
               tool_call_index := s.tool_call_index + 1,
               message := { s.message with
                 tool_calls := some ((s.message.tool_calls.getD []) ++
                   [{ id := c.id, name := c.name, arguments := c.arg0 }]) } } := by
    constructor
    · rfl
    · show s.tool_call_index + 1 = _
      rw [ht.2]
      simp
  obtain ⟨s1, hrun, h1, h2, h3, h4, h5, h6⟩ :=
    run_conts c.conts _ (s.message.tool_calls.getD [])
      { id := c.id, name := c.name, arguments := c.arg0 } ht' rfl
  refine ⟨s1, ?_, h1, h2, h3, h4, h5, h6⟩
  simp only [fragsOfSpec, runFragments]
  rw [hstep]
  exact hrun

theorem runFragments_append (fs1 fs2 : List Fragment) : ∀ s : AccState,
    runFragments s (fs1 ++ fs2) =
      match runFragments s fs1 with
      | Except.error e => Except.error e
      | Except.ok s1 => runFragments s1 fs2 := by
  induction fs1 with
  | nil => intro s; rfl
  | cons f fs ih =>
    intro s
    simp only [List.cons_append, runFragments]
    cases stepFragment s f with
    | error e => rfl
    | ok s1 => exact ih s1

theorem run_specs (l : List CallSpec) : ∀ s : AccState,
    (∀ c ∈ l, c.id ≠ "") → tcOk s →
    ∃ s1, runFragments s (fragsOfSpecs l) = Except.ok s1 ∧ tcOk s1 ∧
      s1.message.tool_calls.getD [] =
        (s.message.tool_calls.getD []) ++ l.map entryOfSpec := by
  induction l with
  | nil =>
    intro s _ ht
    exact ⟨s, rfl, ht, by simp [fragsOfSpecs]⟩
  | cons c rest ih =>
    intro s hids ht
    obtain ⟨s', hrun1, ht', htc', _, _, _, _⟩ := run_spec c s (hids c (by simp)) ht
    obtain ⟨s1, hrun2, ht1, htc1⟩ := ih s' (fun d hd => hids d (by simp [hd])) ht'
    refine ⟨s1, ?_, ht1, ?_⟩
    · have hsplit : fragsOfSpecs (c :: rest) = fragsOfSpec c ++ fragsOfSpecs rest := by
        simp [fragsOfSpecs]
      rw [hsplit, runFragments_append, hrun1]
      exact hrun2
    · rw [htc1, htc']
      simp

/-!  ### Claim C1  -/

/-- C1: a fragment sequence introducing N tool calls (each by a fragment
whose tool-call increment carries a fresh, non-empty id) interleaved with
continuation fragments lacking an id accumulates to a `tool_calls` list
with exactly N entries in first-seen order, no two entries sharing an id,
and each entry's argument text equal to its introducing fragment's argument
text concatenated with all continuation text arriving before the next
id-bearing fragment. -/
theorem c1_tool_call_accumulation (l : List CallSpec)
    (hfresh : ∀ c ∈ l, c.id ≠ "") (hnodup : (l.map CallSpec.id).Nodup) :
    ∃ s1, runFragments initState (fragsOfSpecs l) = Except.ok s1 ∧
      msgToolCalls s1.message = l.map entryOfSpec ∧
      (msgToolCalls s1.message).map ToolCall.id = l.map CallSpec.id ∧
      ((msgToolCalls s1.message).map ToolCall.id).Nodup := by
  obtain ⟨s1, hrun, _, htc⟩ := run_specs l initState hfresh ⟨rfl, rfl⟩
  have hmt : msgToolCalls s1.message = l.map entryOfSpec := by
    rw [msgToolCalls, htc]
    rfl
  have hids : (msgToolCalls s1.message).map ToolCall.id = l.map CallSpec.id := by
    rw [hmt, List.map_map]
    rfl
  refine ⟨s1, hrun, hmt, hids, ?_⟩
  rw [hids]
  exact hnodup

/-- C1, witness: the theorem applied to a concrete stream of two tool
calls, the first with two argument continuations and the second with
one. -/
theorem c1_tool_call_accumulation_witness :
    ∃ s1, runFragments initState (fragsOfSpecs
        [⟨"c1", "echo", "ab", ["cd", "ef"]⟩, ⟨"c2", "ls", "", ["x"]⟩]) =
          Except.ok s1 ∧
      msgToolCalls s1.message =
        ([⟨"c1", "echo", "ab", ["cd", "ef"]⟩,
          ⟨"c2", "ls", "", ["x"]⟩] : List CallSpec).map entryOfSpec ∧
      (msgToolCalls s1.message).map ToolCall.id =
        ([⟨"c1", "echo", "ab", ["cd", "ef"]⟩,
          ⟨"c2", "ls", "", ["x"]⟩] : List CallSpec).map CallSpec.id ∧
      ((msgToolCalls s1.message).map ToolCall.id).Nodup :=
  c1_tool_call_accumulation
    [⟨"c1", "echo", "ab", ["cd", "ef"]⟩, ⟨"c2", "ls", "", ["x"]⟩]
    (by decide) (by decide)

/-!  ### Claim C2  -/

/-- C2, counterexample: a stream consisting of the single content increment
`"\n"` leaves the completed message's `content` absent, while the
concatenation of all content increments in arrival order is `"\n"`; so the
content does not equal that concatenation. -/
theorem c2_counterexample :
    runFragments initState [fragOfInc (Inc.content "\n")] = Except.ok initState ∧
    initState.message.content = none ∧
    catStrs (contentIncs [Inc.content "\n"]) = "\n" ∧
    initState.message.content.getD "" ≠ catStrs (contentIncs [Inc.content "\n"]) :=
  ⟨rfl, rfl, rfl, by decide⟩

/-- C2 (amended): for every fragment sequence in which each fragment carries
a single increment category, the completed message's `content` (reading an
absent field as the empty string) equals the concatenation, in arrival
order, of all content increments other than those equal to a lone newline
(which the accumulator treats as absent), and its `reasoning_content`
equals the concatenation of all reasoning increments in arrival order. -/
theorem c2_content_reasoning_concat (incs : List Inc) :
    ∃ s1, runFragments initState (incs.map fragOfInc) = Except.ok s1 ∧
      s1.message.content.getD "" =
        catStrs ((contentIncs incs).filter (fun v => v != "\n")) ∧
      s1.message.reasoning_content.getD "" = catStrs (reasoningIncs incs) := by
  obtain ⟨s1, hrun, _, h2, h3, _, _, _⟩ := runIncs incs initState ⟨rfl, rfl⟩
  refine ⟨s1, hrun, ?_, ?_⟩
  · rw [h2]
    have := optConcat_none_getD
      ((contentIncs incs).filter (fun v => v != "\n" && v != ""))
    rw [show initState.message.content = none from rfl, this]
    exact catStrs_filter_drop_empty (fun v => v != "\n") (contentIncs incs)
  · rw [h3]
    have := optConcat_none_getD ((reasoningIncs incs).filter (fun v => v != ""))
    rw [show initState.message.reasoning_content = none from rfl, this]
    have h := catStrs_filter_drop_empty (fun _ => true) (reasoningIncs incs)
    simpa using h

/-!  ### Claim C3  -/

/-- C3: a content increment consisting solely of a lone newline never
contributes to `content` and never triggers content-start signaling: the
accumulator state after such an increment is exactly the state before, and
a stream whose content increments are all lone newlines completes with the
`content` field absent and the content-start flag never set. -/
theorem c3_lone_newline_ignored :
    (∀ s : AccState, stepFragment s (contentFrag "\n") = Except.ok s) ∧
    (∀ incs : List Inc, (∀ v ∈ contentIncs incs, v = "\n") →
      ∃ s1, runFragments initState (incs.map fragOfInc) = Except.ok s1 ∧
        s1.message.content = none ∧ s1.started_content = false) := by
  constructor
  · intro s
    exact step_content_skip s "\n" (Or.inl rfl)
  · intro incs hall
    obtain ⟨s1, hrun, h1, h2, _, _, _, _⟩ := runIncs incs initState ⟨rfl, rfl⟩
    have hfe : (contentIncs incs).filter (fun v => v != "\n" && v != "") = [] := by
      rw [List.filter_eq_nil_iff]
      intro v hv
      simp [hall v hv]
    rw [show initState.message.content = none from rfl, hfe] at h2
    have hnone : s1.message.content = none := h2
    refine ⟨s1, hrun, hnone, ?_⟩
    rw [h1.1, hnone]
    rfl

/-- C3, witness: the theorem applied to the concrete stream consisting of a
lone-newline content increment followed by a reasoning increment. -/
theorem c3_lone_newline_ignored_witness :
    ∃ s1, runFragments initState
        ([Inc.content "\n", Inc.reasoning "hm"].map fragOfInc) = Except.ok s1 ∧
      s1.message.content = none ∧ s1.started_content = false :=
  c3_lone_newline_ignored.2 [Inc.content "\n", Inc.reasoning "hm"] (by decide)

/-!  ### Claim C4  -/

/-- C4, counterexample: a terminal fragment carrying both timing counters
`(cache 1, prompt 2, predicted 3)` and the explicit usage total 42 yields a
token count of 6 (the timings sum), not 42: the accumulator prefers
timings over explicit usage totals, not the other way around. -/
theorem c4_counterexample :
    stepFragment initState
        { delta := none, finish_reason := some "stop",
          timings := some { cache_n := 1, prompt_n := 2, predicted_n := 3 },
          usage := some { total_tokens := 42 } } =
      Except.ok { initState with n_tokens := 6 } ∧ (6 : Nat) ≠ 42 :=
  ⟨rfl, by decide⟩

/-- C4 (amended): the token count is computed from the terminal fragment's
counters preferring the timing counters over explicit usage totals: a
terminal fragment carrying timings yields their sum whether or not usage is
present, and a terminal fragment carrying usage but no timings yields the
explicit usage total (so `usage.total_tokens = 42` alone gives 42, and
timings `(cache 1, prompt 2, predicted 3)` give 6). -/
theorem c4_token_count (s : AccState) (fr : String) (hfr : fr ≠ "")
    (t : Timings) (u : Option Usage) (u' : Usage) :
    stepFragment s
        { delta := none, finish_reason := some fr,
          timings := some t, usage := u } =
      Except.ok { s with n_tokens := t.cache_n + t.prompt_n + t.predicted_n } ∧
    stepFragment s
        { delta := none, finish_reason := some fr,
          timings := none, usage := some u' } =
      Except.ok { s with n_tokens := u'.total_tokens } := by
  constructor <;> simp [stepFragment, handleFinish, pyTruthyStr, hfr]

/-- C4, witness: the amended theorem applied to the two counter shapes of
the claim. -/
theorem c4_token_count_witness :
    stepFragment initState
        { delta := none, finish_reason := some "stop",
          timings := some { cache_n := 1, prompt_n := 2, predicted_n := 3 },
          usage := none } =
      Except.ok { initState with n_tokens := 6 } ∧
    stepFragment initState
        { delta := none, finish_reason := some "stop",
          timings := none, usage := some { total_tokens := 42 } } =
      Except.ok { initState with n_tokens := 42 } :=
  c4_token_count initState "stop" (by decide)
    { cache_n := 1, prompt_n := 2, predicted_n := 3 } none { total_tokens := 42 }

/-!  ### Claim C7  -/

theorem listStarts_self_append (p r : List Char) : listStarts p (p ++ r) = true := by
  induction p with
  | nil => rfl
  | cons c ps ih => simp [listStarts, ih]

theorem pyStartsWith_data (payload : String) :
    pyStartsWith ("data: " ++ payload) "data: " = true := by
  show listStarts ("data: ").data (("data: " ++ payload).data) = true
  rw [String.data_append]
  exact listStarts_self_append _ _

theorem pyDrop6_data (payload : String) : pyDrop 6 ("data: " ++ payload) = payload := by
  obtain ⟨l⟩ := payload
  show String.mk (("data: " ++ String.mk l).data.drop 6) = String.mk l
  rw [String.data_append]
  have h6 : ("data: ").data.length = 6 := rfl
  rw [← h6, List.drop_left]

/-- C7: the stream decoder ignores every line that (after right-stripping)
does not begin with the event-data prefix; a line whose payload is the
literal sentinel ends the fragment sequence cleanly, returning the
completed message and token count rather than an error; every other
recognized payload is decoded as one JSON object and processed as one
fragment; a payload on which decoding fails raises a fatal error for the
turn instead of being skipped. -/
theorem c7_stream_decoder (decode : String → Option Fragment) (s : AccState)
    (line : String) :
    (pyStartsWith (pyRstrip line) "data: " = false →
      processLine decode s line = Except.ok (Sum.inl s)) ∧
    (pyRstrip line = "data: [DONE]" →
      processLine decode s line = Except.ok (Sum.inr (s.message, s.n_tokens))) ∧
    (∀ payload : String, pyRstrip line = "data: " ++ payload →
      payload ≠ "[DONE]" →
      (decode payload = none →
        processLine decode s line = Except.error "json.JSONDecodeError") ∧
      (∀ f : Fragment, decode payload = some f →
        processLine decode s line = (stepFragment s f).map Sum.inl)) := by
  refine ⟨?_, ?_, ?_⟩
  · intro h
    simp [processLine, h]
  · intro h
    have hsw : pyStartsWith "data: [DONE]" "data: " = true := by decide
    have hdr : pyDrop 6 "data: [DONE]" = "[DONE]" := by decide
    simp [processLine, h, hsw, hdr]
  · intro payload hline hne
    constructor
    · intro hdec
      simp [processLine, hline, pyStartsWith_data, pyDrop6_data, hne, hdec]
    · intro f hdec
      cases hst : stepFragment s f with
      | error e =>
        simp [processLine, hline, pyStartsWith_data, pyDrop6_data, hne, hdec, hst,
          Except.map]
      | ok s1 =>
        simp [processLine, hline, pyStartsWith_data, pyDrop6_data, hne, hdec, hst,
          Except.map]

/-- C7, witness: the theorem applied to a non-event line, the sentinel
line, a malformed payload and a well-formed payload. -/
theorem c7_stream_decoder_witness :
    processLine decNone initState "ping" = Except.ok (Sum.inl initState) ∧
    processLine decNone initState "data: [DONE]\n" =
      Except.ok (Sum.inr (initState.message, initState.n_tokens)) ∧
    processLine decNone initState "data: bad\n" =
      Except.error "json.JSONDecodeError" ∧
    processLine decEx initState "data: x\n" =
      (stepFragment initState (contentFrag "hi")).map Sum.inl :=
  ⟨(c7_stream_decoder decNone initState "ping").1 (by decide),
   (c7_stream_decoder decNone initState "data: [DONE]\n").2.1 (by decide),
   ((c7_stream_decoder decNone initState "data: bad\n").2.2 "bad"
     (by decide) (by decide)).1 (by decide),
   ((c7_stream_decoder decEx initState "data: x\n").2.2 "x"
     (by decide) (by decide)).2 (contentFrag "hi") (by decide)⟩

/-!  ### Orchestration-loop helper lemmas  -/

theorem lookupTool_eq_none {Args : Type} (tools : Registry Args) (k : String)
    (h : k ∉ registryKeys tools) : lookupTool tools k = none := by
  induction tools with
  | nil => rfl
  | cons p rest ih =>
    obtain ⟨n, f⟩ := p
    have hn : n ≠ k := by
      intro he
      exact h (by simp [registryKeys, he])
    have hr : k ∉ registryKeys rest := by
      intro hm
      exact h (by simp [registryKeys] at hm ⊢; exact Or.inr hm)
    simp [lookupTool, hn, ih hr]

theorem mem_pyStrInner (k : String) : ∀ l : List String, k ∈ l →
    ∃ a b, pyStrInner l = a ++ k ++ b := by
  intro l
  induction l with
  | nil => intro h; cases h
  | cons x rest ih =>
    intro hmem
    cases rest with
    | nil =>
      have hx : k = x := by
        cases hmem with
        | head => rfl
        | tail _ h => cases h
      subst hx
      exact ⟨"\x27", "\x27", rfl⟩
    | cons y rest' =>
      rcases List.mem_cons.mp hmem with hx | hmem'
      · subst hx
        refine ⟨"\x27", "\x27" ++ ", " ++ pyStrInner (y :: rest'), ?_⟩
        show pyRepr k ++ ", " ++ pyStrInner (y :: rest') = _
        simp [pyRepr, String.append_assoc]
      · obtain ⟨a, b, hab⟩ := ih hmem'
        refine ⟨pyRepr x ++ ", " ++ a, b, ?_⟩
        show pyRepr x ++ ", " ++ pyStrInner (y :: rest') = _
        rw [hab]
        simp [String.append_assoc]

theorem contains_pyStrList (k : String) (l : List String) (hk : k ∈ l) :
    Contains (pyStrList l) k := by
  obtain ⟨a, b, hab⟩ := mem_pyStrInner k l hk
  refine ⟨"[" ++ a, b ++ "]", ?_⟩
  rw [pyStrList, hab]
  simp [String.append_assoc]

theorem runToolCalls_shape {Args : Type} (tools : Registry Args)
    (parseArgs : String → Except String Args) : ∀ (tcs : List ToolCall)
    (msgs out : List Msg), runToolCalls tools parseArgs msgs tcs = Except.ok out →
    ∃ rs : List String, rs.length = tcs.length ∧
      out = msgs ++ List.zipWith (fun tc res => Msg.tool tc.id tc.name res) tcs rs := by
  intro tcs
  induction tcs with
  | nil =>
    intro msgs out h
    simp only [runToolCalls, Except.ok.injEq] at h
    exact ⟨[], rfl, by simp [h]⟩
  | cons tc rest ih =>
    intro msgs out h
    simp only [runToolCalls] at h
    cases hd : dispatchOne tools parseArgs tc with
    | error e => simp only [hd] at h; cases h
    | ok m =>
      simp only [hd] at h
      obtain ⟨rs, hlen, hout⟩ := ih (msgs ++ [m]) out h
      have hm : ∃ res, m = Msg.tool tc.id tc.name res := by
        simp only [dispatchOne] at hd
        cases hlk : lookupTool tools tc.name with
        | some fn =>
          simp only [hlk] at hd
          cases hpa : parseArgs tc.arguments with
          | error e => simp only [hpa] at hd; cases hd
          | ok kw =>
            simp only [hpa] at hd
            cases hfn : fn kw with
            | error e => simp only [hfn] at hd; cases hd
            | ok res =>
              simp only [hfn, Except.ok.injEq] at hd
              exact ⟨res, hd.symm⟩
        | none =>
          simp only [hlk, Except.ok.injEq] at hd
          exact ⟨_, hd.symm⟩
      obtain ⟨res, hres⟩ := hm
      refine ⟨res :: rs, by simp [hlen], ?_⟩
      rw [hout, hres]
      simp

theorem runToolCalls_length {Args : Type} (tools : Registry Args)
    (parseArgs : String → Except String Args) (tcs : List ToolCall)
    (msgs out : List Msg) (h : runToolCalls tools parseArgs msgs tcs = Except.ok out) :
    out.length = msgs.length + tcs.length := by
  obtain ⟨rs, hlen, hout⟩ := runToolCalls_shape tools parseArgs tcs msgs out h
  rw [hout]
  simp [hlen]

theorem gatherPlan_length {Args : Type} (tools : Registry Args)
    (parseArgs : String → Except String Args) : ∀ (tcs : List ToolCall)
    (plan : List (Except String String)),
    gatherPlan tools parseArgs tcs = Except.ok plan → plan.length = tcs.length := by
  intro tcs
  induction tcs with
  | nil =>
    intro plan h
    simp only [gatherPlan, Except.ok.injEq] at h
    simp [← h]
  | cons tc rest ih =>
    intro plan h
    simp only [gatherPlan] at h
    cases hlk : lookupTool tools tc.name with
    | some fn =>
      simp only [hlk] at h
      cases hpa : parseArgs tc.arguments with
      | error e => simp only [hpa] at h; cases h
      | ok kw =>
        simp only [hpa] at h
        cases hg : gatherPlan tools parseArgs rest with
        | error e => simp only [hg] at h; cases h
        | ok l =>
          simp only [hg, Except.ok.injEq] at h
          simp [← h, ih l hg]
    | none =>
      simp only [hlk] at h
      cases hg : gatherPlan tools parseArgs rest with
      | error e => simp only [hg] at h; cases h
      | ok l =>
        simp only [hg, Except.ok.injEq] at h
        simp [← h, ih l hg]

theorem gatherResults_length : ∀ (plan : List (Except String String))
    (results : List String), gatherResults plan = Except.ok results →
    results.length = plan.length := by
  intro plan
  induction plan with
  | nil =>
    intro results h
    simp only [gatherResults, Except.ok.injEq] at h
    simp [← h]
  | cons r rest ih =>
    intro results h
    cases r with
    | error e => cases h
    | ok v =>
      simp only [gatherResults] at h
      cases hg : gatherResults rest with
      | error e => simp only [hg] at h; cases h
      | ok vs =>
        simp only [hg, Except.ok.injEq] at h
        simp [← h, ih vs hg]

theorem runToolCallsGather_shape {Args : Type} (tools : Registry Args)
    (parseArgs : String → Except String Args) (tcs : List ToolCall)
    (msgs out : List Msg)
    (h : runToolCallsGather tools parseArgs msgs tcs = Except.ok out) :
    ∃ rs : List String, rs.length = tcs.length ∧
      out = msgs ++ List.zipWith (fun tc res => Msg.tool tc.id tc.name res) tcs rs := by
  simp only [runToolCallsGather] at h
  cases hp : gatherPlan tools parseArgs tcs with
  | error e => simp only [hp] at h; cases h
  | ok plan =>
    simp only [hp] at h
    cases hg : gatherResults plan with
    | error e => simp only [hg] at h; cases h
    | ok results =>
      simp only [hg, Except.ok.injEq] at h
      exact ⟨results, by rw [gatherResults_length plan results hg,
        gatherPlan_length tools parseArgs tcs plan hp], h.symm⟩

theorem toolLoop_eq {Args : Type} (tools : Registry Args)
    (parseArgs : String → Except String Args) (script : List (Message × Nat))
    (msgs : List Msg) (resp : Message) (ntok : Nat) :
    toolLoop tools parseArgs script msgs resp ntok =
      if hasToolCalls resp then
        match runToolCalls tools parseArgs msgs (msgToolCalls resp) with
        | Except.error e => Except.error e
        | Except.ok msgs1 =>
          match script with
          | [] => Except.ok none
          | (r, t) :: rest =>
            toolLoop tools parseArgs rest (msgs1 ++ [Msg.assistant r]) r t
      else Except.ok (some (msgs, ntok)) := by
  rw [toolLoop]

theorem toolLoop_extends {Args : Type} (tools : Registry Args)
    (parseArgs : String → Except String Args) : ∀ (script : List (Message × Nat))
    (msgs : List Msg) (resp : Message) (ntok : Nat) (out : List Msg) (t : Nat),
    toolLoop tools parseArgs script msgs resp ntok = Except.ok (some (out, t)) →
    ∃ suf, out = msgs ++ suf := by
  intro script
  induction script with
  | nil =>
    intro msgs resp ntok out t h
    rw [toolLoop_eq] at h
    cases htc : hasToolCalls resp with
    | false =>
      simp only [htc, Bool.false_eq_true, if_false] at h
      simp only [Except.ok.injEq, Option.some.injEq, Prod.mk.injEq] at h
      exact ⟨[], by simp [h.1]⟩
    | true =>
      simp only [htc, if_true] at h
      cases hr : runToolCalls tools parseArgs msgs (msgToolCalls resp) with
      | error e => simp only [hr] at h; cases h
      | ok msgs1 => simp only [hr] at h; cases h
  | cons p rest ih =>
    intro msgs resp ntok out t h
    obtain ⟨r, tk⟩ := p
    rw [toolLoop_eq] at h
    cases htc : hasToolCalls resp with
    | false =>
      simp only [htc, Bool.false_eq_true, if_false] at h
      simp only [Except.ok.injEq, Option.some.injEq, Prod.mk.injEq] at h
      exact ⟨[], by simp [h.1]⟩
    | true =>
      simp only [htc, if_true] at h
      cases hr : runToolCalls tools parseArgs msgs (msgToolCalls resp) with
      | error e => simp only [hr] at h; cases h
      | ok msgs1 =>
        simp only [hr] at h
        obtain ⟨suf1, hsuf1⟩ := ih (msgs1 ++ [Msg.assistant r]) r tk out t h
        obtain ⟨rs, _, hout1⟩ :=
          runToolCalls_shape tools parseArgs (msgToolCalls resp) msgs msgs1 hr
        refine ⟨List.zipWith (fun tc res => Msg.tool tc.id tc.name res)
          (msgToolCalls resp) rs ++ [Msg.assistant r] ++ suf1, ?_⟩
        rw [hsuf1, hout1]
        simp

theorem handleDelta_n_tokens (s : AccState) (d : Delta) (s' : AccState)
    (h : handleDelta s d = Except.ok s') : s'.n_tokens = s.n_tokens := by
  simp only [handleDelta] at h
  repeat' split at h
  all_goals
    first
      | exact Except.noConfusion h
      | (cases h; rfl)

theorem stepFragment_n_tokens (s : AccState) (f : Fragment)
    (hf : pyTruthyStr f.finish_reason = false ∨ (f.timings = none ∧ f.usage = none))
    (s' : AccState) (h : stepFragment s f = Except.ok s') :
    s'.n_tokens = s.n_tokens := by
  have hfin : ∀ u : AccState, (handleFinish u f).n_tokens = u.n_tokens := by
    intro u
    rcases hf with h1 | ⟨h2, h3⟩
    · simp [handleFinish, h1]
    · simp [handleFinish, h2, h3]
  simp only [stepFragment] at h
  cases hd : f.delta with
  | none =>
    simp only [hd, Except.ok.injEq] at h
    rw [← h]
    exact hfin s
  | some d =>
    simp only [hd] at h
    cases hhd : handleDelta s d with
    | error e => simp only [hhd] at h; cases h
    | ok s1 =>
      simp only [hhd, Except.ok.injEq] at h
      rw [← h, hfin s1]
      exact handleDelta_n_tokens s d s1 hhd

/-!  ### Claim C5  -/

/-- C5, counterexample: a tool call whose argument text does not parse, or
whose tool raises, makes the sequential dispatch loop (and the concurrent
gather dispatch) return the raised fault itself instead of an ok state with
a tool message appended — the fault is not caught at the dispatch boundary
and the conversation gains no tool message for the call. -/
theorem c5_counterexample :
    runToolCalls toolsEx parseJ []
        [{ id := "c1", name := "echo", arguments := "bad" }] =
      Except.error "JSONDecodeError" ∧
    runToolCalls toolsEx parseJ []
        [{ id := "c2", name := "boom", arguments := "good" }] =
      Except.error "RuntimeError: boom" ∧
    runToolCallsGather toolsEx parseJ []
        [{ id := "c1", name := "echo", arguments := "bad" }] =
      Except.error "JSONDecodeError" :=
  ⟨rfl, rfl, rfl⟩

/-- C5 (amended): for a tool call whose name resolves in the registry, an
argument-parse failure or a raised tool fault propagates out of the
dispatch loop as a process-level fault and no tool message is appended for
the failing call; the conversation grows by exactly one message per tool
call only when the whole dispatch completes without fault. -/
theorem c5_tool_fault_propagates {Args : Type} (tools : Registry Args)
    (parseArgs : String → Except String Args) (tc : ToolCall)
    (fn : Args → Except String String)
    (hfn : lookupTool tools tc.name = some fn) :
    (∀ e, parseArgs tc.arguments = Except.error e →
      ∀ (msgs : List Msg) (rest : List ToolCall),
        runToolCalls tools parseArgs msgs (tc :: rest) = Except.error e) ∧
    (∀ kw e, parseArgs tc.arguments = Except.ok kw → fn kw = Except.error e →
      ∀ (msgs : List Msg) (rest : List ToolCall),
        runToolCalls tools parseArgs msgs (tc :: rest) = Except.error e) ∧
    (∀ (tcs : List ToolCall) (msgs out : List Msg),
      runToolCalls tools parseArgs msgs tcs = Except.ok out →
      out.length = msgs.length + tcs.length) := by
  refine ⟨?_, ?_, ?_⟩
  · intro e he msgs rest
    simp [runToolCalls, dispatchOne, hfn, he]
  · intro kw e hkw he msgs rest
    simp [runToolCalls, dispatchOne, hfn, hkw, he]
  · intro tcs msgs out h
    exact runToolCalls_length tools parseArgs tcs msgs out h

/-- C5, witness: the amended theorem applied to a registry containing
`echo` and an argument text the parser rejects. -/
theorem c5_tool_fault_propagates_witness :
    runToolCalls toolsEx parseJ []
        ({ id := "c1", name := "echo", arguments := "bad" } :: []) =
      Except.error "JSONDecodeError" :=
  (c5_tool_fault_propagates toolsEx parseJ
      { id := "c1", name := "echo", arguments := "bad" }
      (fun _ => Except.ok "4") rfl).1 "JSONDecodeError" rfl [] []

/-!  ### Claim C6  -/

/-- C6: dispatching a tool call whose name is absent from the registry
produces (without faulting) an ordinary tool message whose text contains
the attempted name and every known tool name, and the dispatch loop simply
continues with that message appended. -/
theorem c6_unknown_tool {Args : Type} (tools : Registry Args)
    (parseArgs : String → Except String Args) (tc : ToolCall)
    (msgs : List Msg) (rest : List ToolCall)
    (habs : tc.name ∉ registryKeys tools) :
    dispatchOne tools parseArgs tc = Except.ok (Msg.tool tc.id tc.name
      (tc.name ++ " not in tools[" ++ pyStrList (registryKeys tools) ++ "]")) ∧
    Contains (tc.name ++ " not in tools[" ++ pyStrList (registryKeys tools) ++ "]")
      tc.name ∧
    (∀ k ∈ registryKeys tools,
      Contains
        (tc.name ++ " not in tools[" ++ pyStrList (registryKeys tools) ++ "]") k) ∧
    runToolCalls tools parseArgs msgs (tc :: rest) =
      runToolCalls tools parseArgs (msgs ++ [Msg.tool tc.id tc.name
        (tc.name ++ " not in tools[" ++ pyStrList (registryKeys tools) ++ "]")]) rest := by
  have hlk : lookupTool tools tc.name = none :=
    lookupTool_eq_none tools tc.name habs
  refine ⟨?_, ?_, ?_, ?_⟩
  · simp [dispatchOne, hlk]
  · refine ⟨"", " not in tools[" ++ pyStrList (registryKeys tools) ++ "]", ?_⟩
    simp [String.empty_append, String.append_assoc]
  · intro k hk
    obtain ⟨a, b, hab⟩ := contains_pyStrList k (registryKeys tools) hk
    refine ⟨tc.name ++ " not in tools[" ++ a, b ++ "]", ?_⟩
    rw [hab]
    simp [String.append_assoc]
  · simp [runToolCalls, dispatchOne, hlk]

/-- C6, witness: the theorem applied to the two-tool registry and the
unknown name `nope`. -/
theorem c6_unknown_tool_witness :
    dispatchOne toolsEx parseU { id := "c1", name := "nope", arguments := "x" } =
      Except.ok (Msg.tool "c1" "nope"
        ("nope" ++ " not in tools[" ++ pyStrList (registryKeys toolsEx) ++ "]")) ∧
    Contains ("nope" ++ " not in tools[" ++ pyStrList (registryKeys toolsEx) ++ "]")
      "nope" ∧
    (∀ k ∈ registryKeys toolsEx,
      Contains
        ("nope" ++ " not in tools[" ++ pyStrList (registryKeys toolsEx) ++ "]") k) ∧
    runToolCalls toolsEx parseU []
        ({ id := "c1", name := "nope", arguments := "x" } :: []) =
      runToolCalls toolsEx parseU ([] ++ [Msg.tool "c1" "nope"
        ("nope" ++ " not in tools[" ++ pyStrList (registryKeys toolsEx) ++ "]")]) [] :=
  c6_unknown_tool toolsEx parseU { id := "c1", name := "nope", arguments := "x" }
    [] [] (by decide)

/-!  ### Claim C8  -/

/-- C8: after a turn's message is appended, an empty or absent `toolCalls`
makes the tool loop exit at once so the loop blocks for user input, the
user message being appended right after the assistant message; otherwise
the tool calls are dispatched and their tool messages appended in exactly
the original request order, one per call (also under the concurrent gather
dispatch of the self-improving agent), after which the next turn-executor
response is consumed before control can return to the user. -/
theorem c8_orchestration_order :
    (∀ (Args : Type) (tools : Registry Args)
      (parseArgs : String → Except String Args) (script : List (Message × Nat))
      (msgs : List Msg) (resp : Message) (ntok : Nat),
      resp.tool_calls = none ∨ resp.tool_calls = some [] →
      toolLoop tools parseArgs script msgs resp ntok =
        Except.ok (some (msgs, ntok))) ∧
    (∀ (Args : Type) (tools : Registry Args)
      (parseArgs : String → Except String Args) (script : List (Message × Nat))
      (msgs : List Msg) (resp : Message) (ntok : Nat) (u : String),
      resp.tool_calls = none ∨ resp.tool_calls = some [] →
      outerStep tools parseArgs msgs resp ntok script u =
        Except.ok (some ((msgs ++ [Msg.assistant resp]) ++ [Msg.user u]))) ∧
    (∀ (Args : Type) (tools : Registry Args)
      (parseArgs : String → Except String Args) (msgs msgs1 : List Msg)
      (resp r : Message) (ntok t : Nat) (rest : List (Message × Nat)),
      hasToolCalls resp = true →
      runToolCalls tools parseArgs msgs (msgToolCalls resp) = Except.ok msgs1 →
      toolLoop tools parseArgs ((r, t) :: rest) msgs resp ntok =
        toolLoop tools parseArgs rest (msgs1 ++ [Msg.assistant r]) r t) ∧
    (∀ (Args : Type) (tools : Registry Args)
      (parseArgs : String → Except String Args) (tcs : List ToolCall)
      (msgs out : List Msg),
      runToolCalls tools parseArgs msgs tcs = Except.ok out →
      ∃ rs : List String, rs.length = tcs.length ∧
        out = msgs ++ List.zipWith (fun tc res => Msg.tool tc.id tc.name res) tcs rs) ∧
    (∀ (Args : Type) (tools : Registry Args)
      (parseArgs : String → Except String Args) (tcs : List ToolCall)
      (msgs out : List Msg),
      runToolCallsGather tools parseArgs msgs tcs = Except.ok out →
      ∃ rs : List String, rs.length = tcs.length ∧
        out = msgs ++ List.zipWith (fun tc res => Msg.tool tc.id tc.name res) tcs rs) := by
  have hempty : ∀ resp : Message,
      (resp.tool_calls = none ∨ resp.tool_calls = some []) →
      hasToolCalls resp = false := by
    intro resp h
    rcases h with h | h <;> simp [hasToolCalls, msgToolCalls, h]
  refine ⟨?_, ?_, ?_, ?_, ?_⟩
  · intro Args tools parseArgs script msgs resp ntok h
    rw [toolLoop_eq]
    simp [hempty resp h]
  · intro Args tools parseArgs script msgs resp ntok u h
    simp only [outerStep]
    rw [toolLoop_eq]
    simp [hempty resp h]
  · intro Args tools parseArgs msgs msgs1 resp r ntok t rest htc hrun
    rw [toolLoop_eq]
    simp [htc, hrun]
  · intro Args tools parseArgs tcs msgs out h
    exact runToolCalls_shape tools parseArgs tcs msgs out h
  · intro Args tools parseArgs tcs msgs out h
    exact runToolCallsGather_shape tools parseArgs tcs msgs out h

/-- C8, witness: the awaiting-user transition on a tool-call-free response,
and one tool-call round consuming the next scripted response. -/
theorem c8_orchestration_order_witness :
    toolLoop toolsEx parseU [] []
        { role := "assistant", reasoning_content := none, content := some "hi",
          tool_calls := none } 5 = Except.ok (some ([], 5)) ∧
    toolLoop toolsEx parseJ
        [({ role := "assistant", reasoning_content := none, content := some "done",
            tool_calls := none }, 7)] []
        { role := "assistant", reasoning_content := none, content := none,
          tool_calls := some [{ id := "c1", name := "echo", arguments := "good" }] }
        3 =
      toolLoop toolsEx parseJ []
        ([Msg.tool "c1" "echo" "4"] ++ [Msg.assistant
          { role := "assistant", reasoning_content := none, content := some "done",
            tool_calls := none }])
        { role := "assistant", reasoning_content := none, content := some "done",
          tool_calls := none } 7 :=
  ⟨c8_orchestration_order.1 Unit toolsEx parseU [] []
      { role := "assistant", reasoning_content := none, content := some "hi",
        tool_calls := none } 5 (Or.inl rfl),
   c8_orchestration_order.2.2.1 Unit toolsEx parseJ [] [Msg.tool "c1" "echo" "4"]
      { role := "assistant", reasoning_content := none, content := none,
        tool_calls := some [{ id := "c1", name := "echo", arguments := "good" }] }
      { role := "assistant", reasoning_content := none, content := some "done",
        tool_calls := none } 3 7 [] rfl rfl⟩

/-!  ### Claim C9  -/

/-- C9: the conversation state is append-only: the sequential dispatch
loop, the concurrent gather dispatch, the tool loop and a whole
awaiting-model episode (assistant message, tool messages, next responses
and the final user message) only ever append to the message sequence, so
every previously appended message and the relative order of existing
messages are unchanged. -/
theorem c9_append_only :
    (∀ (Args : Type) (tools : Registry Args)
      (parseArgs : String → Except String Args) (tcs : List ToolCall)
      (msgs out : List Msg),
      runToolCalls tools parseArgs msgs tcs = Except.ok out →
      ∃ suf, out = msgs ++ suf) ∧
    (∀ (Args : Type) (tools : Registry Args)
      (parseArgs : String → Except String Args) (tcs : List ToolCall)
      (msgs out : List Msg),
      runToolCallsGather tools parseArgs msgs tcs = Except.ok out →
      ∃ suf, out = msgs ++ suf) ∧
    (∀ (Args : Type) (tools : Registry Args)
      (parseArgs : String → Except String Args) (script : List (Message × Nat))
      (msgs out : List Msg) (resp : Message) (ntok t : Nat),
      toolLoop tools parseArgs script msgs resp ntok = Except.ok (some (out, t)) →
      ∃ suf, out = msgs ++ suf) ∧
    (∀ (Args : Type) (tools : Registry Args)
      (parseArgs : String → Except String Args) (script : List (Message × Nat))
      (msgs out : List Msg) (resp : Message) (ntok : Nat) (u : String),
      outerStep tools parseArgs msgs resp ntok script u = Except.ok (some out) →
      ∃ suf, out = msgs ++ suf) := by
  refine ⟨?_, ?_, ?_, ?_⟩
  · intro Args tools parseArgs tcs msgs out h
    obtain ⟨rs, _, hout⟩ := runToolCalls_shape tools parseArgs tcs msgs out h
    exact ⟨_, hout⟩
  · intro Args tools parseArgs tcs msgs out h
    obtain ⟨rs, _, hout⟩ := runToolCallsGather_shape tools parseArgs tcs msgs out h
    exact ⟨_, hout⟩
  · intro Args tools parseArgs script msgs out resp ntok t h
    exact toolLoop_extends tools parseArgs script msgs resp ntok out t h
  · intro Args tools parseArgs script msgs out resp ntok u h
    simp only [outerStep] at h
    cases hres : toolLoop tools parseArgs script (msgs ++ [Msg.assistant resp])
        resp ntok with
    | error e => simp only [hres] at h; cases h
    | ok o =>
      cases o with
      | none => simp only [hres] at h; cases h
      | some p =>
        obtain ⟨msgs1, t⟩ := p
        simp only [hres, Except.ok.injEq, Option.some.injEq] at h
        obtain ⟨suf1, hsuf1⟩ := toolLoop_extends tools parseArgs script
          (msgs ++ [Msg.assistant resp]) resp ntok msgs1 t hres
        refine ⟨[Msg.assistant resp] ++ suf1 ++ [Msg.user u], ?_⟩
        rw [← h, hsuf1]
        simp

/-- C9, witness: one successful dispatch extends an existing conversation
by a suffix. -/
theorem c9_append_only_witness :
    ∃ suf, [Msg.user "hey", Msg.tool "c1" "echo" "4"] = [Msg.user "hey"] ++ suf :=
  c9_append_only.1 Unit toolsEx parseU
    [{ id := "c1", name := "echo", arguments := "x" }]
    [Msg.user "hey"] [Msg.user "hey", Msg.tool "c1" "echo" "4"] rfl

/-!  ### Claim C10  -/

/-- C10: usage/timing counters affect the returned token count only when
they appear on a fragment whose `finish_reason` is truthy: for every stream
in which each fragment either lacks a truthy `finish_reason` or carries
neither timings nor usage, the completed state's token count is 0; and a
stream that terminates with no fragments at all returns the bare assistant
message (no content, reasoning or tool-call fields) with token count 0. -/
theorem c10_token_count_scope :
    (∀ (frags : List Fragment) (s' : AccState),
      (∀ f ∈ frags, pyTruthyStr f.finish_reason = false ∨
        (f.timings = none ∧ f.usage = none)) →
      runFragments initState frags = Except.ok s' → s'.n_tokens = 0) ∧
    (∀ decode : String → Option Fragment,
      processLine decode initState "data: [DONE]" =
        Except.ok (Sum.inr
          ({ role := "assistant", reasoning_content := none,
             content := none, tool_calls := none }, 0))) := by
  constructor
  · have key : ∀ (frags : List Fragment) (s s' : AccState),
        (∀ f ∈ frags, pyTruthyStr f.finish_reason = false ∨
          (f.timings = none ∧ f.usage = none)) →
        runFragments s frags = Except.ok s' → s'.n_tokens = s.n_tokens := by
      intro frags
      induction frags with
      | nil =>
        intro s s' _ h
        simp only [runFragments, Except.ok.injEq] at h
        rw [← h]
      | cons f fs ih =>
        intro s s' hall h
        simp only [runFragments] at h
        cases hst : stepFragment s f with
        | error e => simp only [hst] at h; cases h
        | ok s1 =>
          simp only [hst] at h
          rw [ih s1 s' (fun g hg => hall g (List.mem_cons_of_mem f hg)) h]
          exact stepFragment_n_tokens s f (hall f (List.mem_cons_self f fs)) s1 hst
    intro frags s' hall h
    exact key frags initState s' hall h
  · intro decode
    rfl

/-- C10, witness: a stream with a content increment, a timings fragment
lacking `finish_reason` and a counter-free finish fragment keeps the token
count at 0. -/
theorem c10_token_count_scope_witness :
    ({ started_reasoning := false, started_content := true,
       started_tool_calls := false, n_tokens := 0, tool_call_index := -1,
       message := { role := "assistant", reasoning_content := none,
                    content := some "hi", tool_calls := none } } : AccState).n_tokens
      = 0 :=
  c10_token_count_scope.1
    [contentFrag "hi",
     { delta := none, finish_reason := none,
       timings := some { cache_n := 1, prompt_n := 2, predicted_n := 3 },
       usage := none },
     { delta := none, finish_reason := some "stop", timings := none, usage := none }]
    _ (by decide) rfl

end Strix
